import Mathlib

/-!
Verification of the laklak market-data pipeline.

This file gives a shallow embedding, in Lean 4, of the parts of the
repository that the specification's claims are about:

* the symbol-migration tool `migrate_db_symbols.py` (plan building,
  `calculate_new_symbol`, per-entry copy-then-delete execution);
* the venue adapters under `modules/exchanges/` (pagination loops,
  error handling, funding-rate normalization);
* the backfill orchestrator `backfill.py` (`HistoricalBackfill.backfill_coin`);
* the funding-period cache of the writer (its module is absent from the
  sources; it is modelled from the specification and its unit tests).

Network responses are represented by explicit oracle functions, and loops
whose termination is in question are run on explicit fuel, so that
non-termination is expressible (`none` = still running after the given
number of iterations).  Numeric payload fields are rationals; timestamps
are naturals (milliseconds).  Python exceptions are represented with
`Except`, and a caught exception follows exactly the source's handlers.
-/

namespace Laklak

/-! ### String helpers mirroring the Python string operations -/

/-- Lower-case a string character-wise (Python `str.lower` on ASCII input). -/
def lowerStr (s : String) : String := ⟨s.data.map Char.toLower⟩

/-- Upper-case a string character-wise (Python `str.upper` on ASCII input). -/
def upperStr (s : String) : String := ⟨s.data.map Char.toUpper⟩

/-- Fuel-driven worker for `replaceStr`: replaces non-overlapping occurrences
of `pat` left to right, like Python `str.replace` with a non-empty pattern. -/
def replaceListAux (pat rep : List Char) : Nat → List Char → List Char
  | 0, s => s
  | fuel + 1, s =>
    match s with
    | [] => []
    | c :: rest =>
      if pat.isPrefixOf s && !pat.isEmpty then
        rep ++ replaceListAux pat rep fuel (s.drop pat.length)
      else
        c :: replaceListAux pat rep fuel rest

/-- Python `s.replace(pat, rep)` for a non-empty `pat`. -/
def replaceStr (s pat rep : String) : String :=
  ⟨replaceListAux pat.data rep.data s.data.length s.data⟩

/-- Worker for `containsStr`. -/
def containsList (pat : List Char) : List Char → Bool
  | [] => pat.isEmpty
  | c :: rest => pat.isPrefixOf (c :: rest) || containsList pat rest

/-- Python `pat in s` on strings. -/
def containsStr (s pat : String) : Bool := containsList pat.data s.data

/-- Python `s.endswith(suf)`. -/
def endsWithStr (s suf : String) : Bool := suf.data.isSuffixOf s.data

/-- Python `c in s` for a single character. -/
def containsChar (s : String) (c : Char) : Bool := s.data.contains c

/-! ### Migration tool (`migrate_db_symbols.py`)

`InfluxDBMigration.calculate_new_symbol` and the plan-building part of
`InfluxDBMigration.migrate_data`, with the store abstracted as the list of
`(symbol, exchange, data_type)` tag combinations that hold at least one
point (which is what `get_symbol_exchange_pairs` enumerates). -/

/-- The quote-currency stripping of `calculate_new_symbol`:
`old_symbol.replace('USDT', '').replace('USDC', '').replace('USD', '')`. -/
def strip_quote_suffix (sym : String) : String :=
  replaceStr (replaceStr (replaceStr sym "USDT" "") "USDC" "") "USD" ""

/-- The exchange suffix of `calculate_new_symbol`:
`exchange.upper().replace(' ', '')`, normalized to `YFINANCE` when the
lower-cased exchange name mentions `yfinance` or `yahoo`. -/
def exchange_suffix (exchange : String) : String :=
  if containsStr (lowerStr exchange) "yfinance" || containsStr (lowerStr exchange) "yahoo" then
    "YFINANCE"
  else
    replaceStr (upperStr exchange) " " ""

/-- `InfluxDBMigration.calculate_new_symbol` (migrate_db_symbols.py:111-126). -/
def calculate_new_symbol (old_symbol exchange data_type : String) : String :=
  if lowerStr exchange == "deribit" && data_type == "dvol" then
    strip_quote_suffix old_symbol ++ "_DVOL"
  else
    old_symbol ++ "_" ++ exchange_suffix exchange

/-- One `(symbol, exchange, data_type)` tag combination present in the store. -/
structure SeriesTriple where
  symbol : String
  exchange : String
  data_type : String
deriving DecidableEq

/-- The skip test of `migrate_data` (migrate_db_symbols.py:145-147):
`'_' in old_symbol and (old_symbol.endswith('_BYBIT') or
old_symbol.endswith('_YFINANCE') or old_symbol.endswith('_DVOL'))`. -/
def already_migrated (old_symbol : String) : Bool :=
  containsChar old_symbol '_' &&
    (endsWithStr old_symbol "_BYBIT" || endsWithStr old_symbol "_YFINANCE" ||
      endsWithStr old_symbol "_DVOL")

/-- One entry of the migration plan built by `migrate_data`. -/
structure PlanEntry where
  old_symbol : String
  new_symbol : String
  exchange : String
  data_type : String
deriving DecidableEq

/-- The plan-building loop of `migrate_data` (migrate_db_symbols.py:136-156):
for every present combination, compute the new symbol, skip the combination
when `already_migrated` holds of its old symbol, otherwise append an entry. -/
def migration_plan (pairs : List SeriesTriple) : List PlanEntry :=
  pairs.filterMap fun p =>
    if already_migrated p.symbol then none
    else
      some ⟨p.symbol, calculate_new_symbol p.symbol p.exchange p.data_type,
        p.exchange, p.data_type⟩

/-- Effect of executing one plan entry on a series: its points are re-written
under the computed new symbol (skipped combinations keep their symbol). -/
def migrate_step (t : SeriesTriple) : SeriesTriple :=
  if already_migrated t.symbol then t
  else { t with symbol := calculate_new_symbol t.symbol t.exchange t.data_type }

/-- The store after one completed run of the migration: every present
combination renamed by `migrate_step`. -/
def run_migration (store : List SeriesTriple) : List SeriesTriple :=
  store.map migrate_step

/-! ### Per-entry migration execution (`_migrate_single_symbol`)

`_migrate_single_symbol` (migrate_db_symbols.py:192-259) reads the points of
the entry, returns early when there are none, otherwise re-writes them under
the new tag set in slices `points[i:i+5000]` and finally issues one delete of
the old-tagged points.  Points are opaque payloads here; the store write call
is an oracle that may fail (a raised exception propagates out of the
function, so no later event of this entry happens). -/

/-- Fuel-driven worker for `chunksOf`. -/
def chunksAux {α : Type} (n : Nat) : Nat → List α → List (List α)
  | 0, _ => []
  | _ + 1, [] => []
  | fuel + 1, a :: rest => (a :: rest).take n :: chunksAux n fuel ((a :: rest).drop n)

/-- The slices `points[i:i+n]` for `i in range(0, len(points), n)`. -/
def chunksOf {α : Type} (n : Nat) (l : List α) : List (List α) :=
  chunksAux n l.length l

/-- Observable store mutations of one plan entry. -/
inductive MigrationEvent (α : Type)
  | write (batch : List α)
  | delete
deriving DecidableEq

/-- The batch loop of `_migrate_single_symbol`: write each batch in order;
a failed write raises, ending the entry; after all batches, delete. -/
def migrate_batches_events {α : Type} (writeOk : List α → Bool) :
    List (List α) → List (MigrationEvent α)
  | [] => [MigrationEvent.delete]
  | b :: rest =>
    MigrationEvent.write b ::
      (if writeOk b then migrate_batches_events writeOk rest else [])

/-- Event trace of `_migrate_single_symbol` on the points matching the entry:
no points means no events at all, otherwise batched writes then the delete. -/
def migrate_single_symbol_events {α : Type} (writeOk : List α → Bool)
    (points : List α) : List (MigrationEvent α) :=
  if points.isEmpty then []
  else migrate_batches_events writeOk (chunksOf 5000 points)

/-! ### Funding-period cache

Modelled from the spec: the writer module (`modules/influx_writer.py`) is
imported by `backfill.py` and exercised by `tests/test_period.py` but its
source is not present.  Per the spec, the funding-period cache is "a simple
in-memory map keyed by `(symbol, exchange)`"; `setFundingPeriod` stores a
value for the key, and a `getFundingPeriod` miss returns the sentinel
`"unknown"`.  The map is an association list with the newest binding first. -/

/-- Modelled from the spec: the in-memory funding-period cache of the missing
writer module, a map from `(symbol, exchange)` to a period string. -/
abbrev PeriodCache : Type := List ((String × String) × String)

/-- Modelled from the spec: `setFundingPeriod(symbol, exchange, period)`
binds the key to `period` (newest binding shadows older ones). -/
def set_funding_period (symbol exchange period : String) (c : PeriodCache) :
    PeriodCache :=
  ((symbol, exchange), period) :: c

/-- First (most recent) binding of a key in the cache. -/
def period_lookup (k : String × String) : PeriodCache → Option String
  | [] => none
  | (k', v) :: rest => if k = k' then some v else period_lookup k rest

/-- Modelled from the spec: `getFundingPeriod(symbol, exchange)` returns the
most recent binding for the key, or `"unknown"` when there is none. -/
def get_funding_period (symbol exchange : String) (c : PeriodCache) : String :=
  match period_lookup (symbol, exchange) c with
  | some p => p
  | none => "unknown"

/-! ### Venue adapters (`modules/exchanges/`)

Each REST response is an oracle value; `raise` stands for a raised
`requests` exception or a payload-decode failure inside the `try` block
(both are caught by the adapter's handlers, which return an empty
DataFrame).  A DataFrame row is a `MarketRow`; numeric fields are
rationals, timestamps are naturals (ms).  Loops run on explicit fuel:
`none` means the loop has not exited within that many iterations. -/

/-- One row of the normalized `['time','open','high','low','close','volume']`
DataFrame.  `opn` is the `open` column (`open` is a Lean keyword). -/
structure MarketRow where
  time : Nat
  opn : Rat
  high : Rat
  low : Rat
  close : Rat
  volume : Rat
deriving DecidableEq

/-- Ordered insertion used by `sortByTime`. -/
def insertByTime (p : MarketRow) : List MarketRow → List MarketRow
  | [] => [p]
  | q :: rest =>
    if p.time ≤ q.time then p :: q :: rest else q :: insertByTime p rest

/-- `df.sort_values('time')`. -/
def sortByTime (l : List MarketRow) : List MarketRow :=
  l.foldr insertByTime []

/-- `df.drop_duplicates(subset=['time'], keep='last')`: a row is dropped when
a later row carries the same timestamp. -/
def dedupTimeKeepLast : List MarketRow → List MarketRow
  | [] => []
  | r :: rest =>
    if rest.any (fun q => q.time == r.time) then dedupTimeKeepLast rest
    else r :: dedupTimeKeepLast rest

/-! #### Bybit kline (`modules/exchanges/bybit.py:148-219`) -/

/-- One raw candle of a Bybit kline page. -/
structure BybitCandle where
  timestamp : Nat
  opn : Rat
  high : Rat
  low : Rat
  close : Rat
  volume : Rat
  turnover : Rat
deriving DecidableEq

/-- One Bybit kline response, for the request whose `end` parameter is the
oracle's argument (`start` is fixed for the whole call). -/
inductive BybitKlineResp
  | raise
  | noList
  | page (candles : List BybitCandle) (continuation : Option Nat)
deriving DecidableEq

/-- The paging loop of `BybitKline.fetch_historical_kline`
(bybit.py:165-196): while `current_end > start_timestamp`, request a page;
break on a missing `result.list`, an empty candle list, or a missing
continuation token; otherwise set `current_end` to the continuation and go
on.  There is no iteration cap; fuel only bounds this model's unfolding. -/
def bybit_kline_loop (oracle : Nat → BybitKlineResp) (startTs : Nat) :
    Nat → Nat → List BybitCandle → Option (Except Unit (List BybitCandle))
  | 0, _, _ => none
  | fuel + 1, currentEnd, acc =>
    if currentEnd ≤ startTs then some (Except.ok acc)
    else
      match oracle currentEnd with
      | BybitKlineResp.raise => some (Except.error ())
      | BybitKlineResp.noList => some (Except.ok acc)
      | BybitKlineResp.page [] _ => some (Except.ok acc)
      | BybitKlineResp.page (c :: cs) none => some (Except.ok (acc ++ (c :: cs)))
      | BybitKlineResp.page (c :: cs) (some nxt) =>
        bybit_kline_loop oracle startTs fuel nxt (acc ++ (c :: cs))

/-- A Bybit candle as a row of the returned DataFrame (the extra `turnover`
column is not part of the normalized row). -/
def bybitCandleRow (c : BybitCandle) : MarketRow :=
  ⟨c.timestamp, c.opn, c.high, c.low, c.close, c.volume⟩

/-- `BybitKline.fetch_historical_kline`: run the paging loop; a raised
exception is caught and yields an empty DataFrame; no collected candles
yield an empty DataFrame; otherwise the candles sorted by time.
`none` means the paging loop did not exit within `fuel` iterations. -/
def bybit_fetch_historical_kline (oracle : Nat → BybitKlineResp)
    (fuel startTs endTs : Nat) : Option (List MarketRow) :=
  match bybit_kline_loop oracle startTs fuel endTs [] with
  | none => none
  | some (Except.error _) => some []
  | some (Except.ok []) => some []
  | some (Except.ok (c :: cs)) => some (sortByTime ((c :: cs).map bybitCandleRow))

/-- The claim's termination property for the Bybit kline paging loop:
some finite number of iterations makes it exit. -/
def bybit_loop_terminates (oracle : Nat → BybitKlineResp) (startTs endTs : Nat) : Prop :=
  ∃ fuel, (bybit_kline_loop oracle startTs fuel endTs []).isSome = true

/-- Divergence of the Bybit kline paging loop: no finite number of
iterations makes it exit. -/
def bybit_loop_diverges (oracle : Nat → BybitKlineResp) (startTs endTs : Nat) : Prop :=
  ∀ fuel, bybit_kline_loop oracle startTs fuel endTs [] = none

/-! #### Deribit DVOL (`modules/exchanges/deribit.py:23-119`) -/

/-- One raw candle of a Deribit volatility-index page
(`[timestamp, open, high, low, close]`, no volume). -/
structure DvolCandle where
  timestamp : Nat
  opn : Rat
  high : Rat
  low : Rat
  close : Rat
deriving DecidableEq

/-- One Deribit response, for the request whose `end_timestamp` is the
oracle's argument. -/
inductive DeribitResp
  | raise
  | noData
  | page (candles : List DvolCandle) (continuation : Option Nat)
deriving DecidableEq

/-- The paging loop of `DeribitDVOL.fetch_historical_dvol`
(deribit.py:56-85); identical stopping rule to the Bybit kline loop, and
likewise no iteration cap. -/
def deribit_dvol_loop (oracle : Nat → DeribitResp) (startTs : Nat) :
    Nat → Nat → List DvolCandle → Option (Except Unit (List DvolCandle))
  | 0, _, _ => none
  | fuel + 1, currentEnd, acc =>
    if currentEnd ≤ startTs then some (Except.ok acc)
    else
      match oracle currentEnd with
      | DeribitResp.raise => some (Except.error ())
      | DeribitResp.noData => some (Except.ok acc)
      | DeribitResp.page [] _ => some (Except.ok acc)
      | DeribitResp.page (c :: cs) none => some (Except.ok (acc ++ (c :: cs)))
      | DeribitResp.page (c :: cs) (some nxt) =>
        deribit_dvol_loop oracle startTs fuel nxt (acc ++ (c :: cs))

/-- A DVOL candle as a DataFrame row (`volume` is filled with 0). -/
def dvolCandleRow (c : DvolCandle) : MarketRow :=
  ⟨c.timestamp, c.opn, c.high, c.low, c.close, 0⟩

/-- `DeribitDVOL.fetch_historical_dvol`: exceptions (including HTTP 400) are
caught and yield an empty DataFrame; otherwise collected candles sorted by
time with a zero volume column. -/
def deribit_fetch_historical_dvol (oracle : Nat → DeribitResp)
    (fuel startTs endTs : Nat) : Option (List MarketRow) :=
  match deribit_dvol_loop oracle startTs fuel endTs [] with
  | none => none
  | some (Except.error _) => some []
  | some (Except.ok []) => some []
  | some (Except.ok (c :: cs)) => some (sortByTime ((c :: cs).map dvolCandleRow))

/-- Termination of the Deribit DVOL paging loop. -/
def deribit_loop_terminates (oracle : Nat → DeribitResp) (startTs endTs : Nat) : Prop :=
  ∃ fuel, (deribit_dvol_loop oracle startTs fuel endTs []).isSome = true

/-! #### Binance futures kline (`modules/exchanges/binance.py:42-159`) -/

/-- One raw Binance kline entry (indices 0 and 6 are the open and close
timestamps used by the paging logic). -/
structure BinanceKlineEntry where
  openTime : Nat
  opn : Rat
  high : Rat
  low : Rat
  close : Rat
  volume : Rat
  closeTime : Nat
deriving DecidableEq

/-- One Binance kline response, for the request whose `startTime` is the
oracle's argument. -/
inductive BinanceResp
  | raise
  | errorCode
  | page (entries : List BinanceKlineEntry)
deriving DecidableEq

/-- The forward paging loop of `BinanceFuturesKline.fetch_historical_kline`
(binance.py:84-119): while `current_start < end_time`, request a page; break
on an error payload or an empty page; otherwise accumulate, move
`current_start` to the last entry's close time plus one, and break when the
page held fewer than 1500 entries. -/
def binance_kline_loop (oracle : Nat → BinanceResp) (endTs : Nat) :
    Nat → Nat → List BinanceKlineEntry → Option (Except Unit (List BinanceKlineEntry))
  | 0, _, _ => none
  | fuel + 1, currentStart, acc =>
    if currentStart < endTs then
      match oracle currentStart with
      | BinanceResp.raise => some (Except.error ())
      | BinanceResp.errorCode => some (Except.ok acc)
      | BinanceResp.page [] => some (Except.ok acc)
      | BinanceResp.page (r :: rs) =>
        if (r :: rs).length < 1500 then some (Except.ok (acc ++ (r :: rs)))
        else
          binance_kline_loop oracle endTs fuel (((r :: rs).getLastD r).closeTime + 1)
            (acc ++ (r :: rs))
    else some (Except.ok acc)

/-- Termination of the Binance kline paging loop. -/
def binance_loop_terminates (oracle : Nat → BinanceResp) (startTs endTs : Nat) : Prop :=
  ∃ fuel, (binance_kline_loop oracle endTs fuel startTs []).isSome = true

/-! #### Bitunix kline (`modules/exchanges/bitunix.py:12-119`) -/

/-- One raw Bitunix candle (`baseVol` is used as the volume column). -/
structure BitunixRawCandle where
  time : Nat
  opn : Rat
  high : Rat
  low : Rat
  close : Rat
  baseVol : Rat
deriving DecidableEq

/-- The single Bitunix kline response for the `(startTime, endTime)` request
parameters. -/
inductive BitunixResp
  | raise
  | resp (code : Int) (data : List BitunixRawCandle)
deriving DecidableEq

/-- A Bitunix candle as a DataFrame row. -/
def bitunixCandleRow (c : BitunixRawCandle) : MarketRow :=
  ⟨c.time, c.opn, c.high, c.low, c.close, c.baseVol⟩

/-- `BitunixKline.fetch_historical_kline`: a single request carrying the
start and end timestamps; exceptions, a non-zero `code` and a missing or
empty `data` give an empty DataFrame; otherwise the candles sorted by time.
The response rows are not filtered by timestamp. -/
def bitunix_fetch_historical_kline (oracle : Nat → Nat → BitunixResp)
    (startTs endTs : Nat) : List MarketRow :=
  match oracle startTs endTs with
  | BitunixResp.raise => []
  | BitunixResp.resp code data =>
    if code ≠ 0 then []
    else
      match data with
      | [] => []
      | c :: cs => sortByTime ((c :: cs).map bitunixCandleRow)

/-! #### Funding-rate fetchers -/

/-- One entry of a Bybit funding-history page. -/
structure BybitFundingEntry where
  fundingRateTimestamp : Nat
  fundingRate : Rat
deriving DecidableEq

/-- One Bybit funding-history response, for the request whose `startTime` is
the oracle's argument. -/
inductive BybitFundingResp
  | raise
  | apiError
  | noResult
  | page (entries : List BybitFundingEntry)
deriving DecidableEq

/-- The forward paging loop of `BybitKline.fetch_funding_rate`
(bybit.py:85-117): break on an API error, a missing result, or an empty
page; otherwise accumulate and break when the page's last timestamp does
not advance the cursor or the page held fewer than 200 entries. -/
def bybit_funding_loop (oracle : Nat → BybitFundingResp) (endTs : Nat) :
    Nat → Nat → List BybitFundingEntry → Option (Except Unit (List BybitFundingEntry))
  | 0, _, _ => none
  | fuel + 1, currentStart, acc =>
    if currentStart < endTs then
      match oracle currentStart with
      | BybitFundingResp.raise => some (Except.error ())
      | BybitFundingResp.apiError => some (Except.ok acc)
      | BybitFundingResp.noResult => some (Except.ok acc)
      | BybitFundingResp.page [] => some (Except.ok acc)
      | BybitFundingResp.page (e :: es) =>
        if ((e :: es).getLastD e).fundingRateTimestamp ≤ currentStart
            ∨ (e :: es).length < 200 then
          some (Except.ok (acc ++ (e :: es)))
        else
          bybit_funding_loop oracle endTs fuel
            ((e :: es).getLastD e).fundingRateTimestamp (acc ++ (e :: es))
    else some (Except.ok acc)

/-- A Bybit funding entry as a DataFrame row: the funding rate fills all
four OHLC columns and volume is 0. -/
def bybitFundingRow (e : BybitFundingEntry) : MarketRow :=
  ⟨e.fundingRateTimestamp, e.fundingRate, e.fundingRate, e.fundingRate,
    e.fundingRate, 0⟩

/-- `BybitKline.fetch_funding_rate`: loop, then rows sorted by time with
duplicate timestamps dropped keeping the last. -/
def bybit_fetch_funding_rate (oracle : Nat → BybitFundingResp)
    (fuel startTs endTs : Nat) : Option (List MarketRow) :=
  match bybit_funding_loop oracle endTs fuel startTs [] with
  | none => none
  | some (Except.error _) => some []
  | some (Except.ok []) => some []
  | some (Except.ok (e :: es)) =>
    some (dedupTimeKeepLast (sortByTime ((e :: es).map bybitFundingRow)))

/-- One entry of a Binance funding-rate page; `fundingRate` is `none` when
`pd.to_numeric(..., errors='coerce')` turns it into NaN (dropped later). -/
structure BinanceFundingEntry where
  fundingTime : Nat
  fundingRate : Option Rat
deriving DecidableEq

/-- One Binance funding-rate response, for the request whose `startTime` is
the oracle's argument. -/
inductive BinanceFundingResp
  | raise
  | errorCode
  | page (entries : List BinanceFundingEntry)
deriving DecidableEq

/-- The forward paging loop of `BinanceFuturesKline.fetch_funding_rate`
(binance.py:220-252): like the kline loop with a page limit of 1000 and the
cursor moved to the last entry's funding time plus one. -/
def binance_funding_loop (oracle : Nat → BinanceFundingResp) (endTs : Nat) :
    Nat → Nat → List BinanceFundingEntry → Option (Except Unit (List BinanceFundingEntry))
  | 0, _, _ => none
  | fuel + 1, currentStart, acc =>
    if currentStart < endTs then
      match oracle currentStart with
      | BinanceFundingResp.raise => some (Except.error ())
      | BinanceFundingResp.errorCode => some (Except.ok acc)
      | BinanceFundingResp.page [] => some (Except.ok acc)
      | BinanceFundingResp.page (e :: es) =>
        if (e :: es).length < 1000 then some (Except.ok (acc ++ (e :: es)))
        else
          binance_funding_loop oracle endTs fuel
            (((e :: es).getLastD e).fundingTime + 1) (acc ++ (e :: es))
    else some (Except.ok acc)

/-- Binance funding entries as DataFrame rows: the rate fills all four OHLC
columns, volume is 0, NaN rates are dropped (`dropna`), rows sorted by
time. -/
def binanceFundingRows (entries : List BinanceFundingEntry) : List MarketRow :=
  sortByTime (entries.filterMap fun e =>
    match e.fundingRate with
    | none => none
    | some r => some ⟨e.fundingTime, r, r, r, r, 0⟩)

/-- `BinanceFuturesKline.fetch_funding_rate`. -/
def binance_fetch_funding_rate (oracle : Nat → BinanceFundingResp)
    (fuel startTs endTs : Nat) : Option (List MarketRow) :=
  match binance_funding_loop oracle endTs fuel startTs [] with
  | none => none
  | some (Except.error _) => some []
  | some (Except.ok []) => some []
  | some (Except.ok (e :: es)) => some (binanceFundingRows (e :: es))

/-- One Hyperliquid `fundingHistory` response: raised exception, a payload
that is not a list, or the entries `(time, hourly fundingRate)`. -/
inductive HyperliquidResp
  | raise
  | notList
  | entries (l : List (Nat × Rat))
deriving DecidableEq

/-- `HyperliquidKline.fetch_funding_rate` (hyperliquid.py:56-137): takes the
most recent (last) entry and returns one row whose four OHLC columns carry
the hourly rate multiplied by 8, with volume 0. -/
def hyperliquid_fetch_funding_rate (resp : HyperliquidResp) : List MarketRow :=
  match resp with
  | HyperliquidResp.raise => []
  | HyperliquidResp.notList => []
  | HyperliquidResp.entries [] => []
  | HyperliquidResp.entries (e :: es) =>
    [⟨((e :: es).getLastD e).1,
      ((e :: es).getLastD e).2 * 8, ((e :: es).getLastD e).2 * 8,
      ((e :: es).getLastD e).2 * 8, ((e :: es).getLastD e).2 * 8, 0⟩]

/-- One Bitunix funding-rate response: `data` is `none` when the payload has
no `data` key; otherwise the venue-reported `fundingRate` (a percentage). -/
inductive BitunixFundingResp
  | raise
  | resp (code : Int) (data : Option Rat)
deriving DecidableEq

/-- `BitunixKline.fetch_funding_rate` (bitunix.py:306-367): one row at the
current time whose four OHLC columns carry the reported rate divided by 100
(percentage to decimal), volume 0. -/
def bitunix_fetch_funding_rate (resp : BitunixFundingResp) (nowTs : Nat) :
    List MarketRow :=
  match resp with
  | BitunixFundingResp.raise => []
  | BitunixFundingResp.resp code data =>
    if code ≠ 0 then []
    else
      match data with
      | none => []
      | some rate =>
        [⟨nowTs, rate / 100, rate / 100, rate / 100, rate / 100, 0⟩]

/-! ### Backfill orchestrator (`backfill.py`)

`HistoricalBackfill.backfill_coin` splits `[start, end)` into chunk starts
(`while current_date < end_date: append; current_date += chunk`), then runs
one block per supported venue, each guarded by membership of the venue name
in the symbol's configured exchange list (YFinance additionally requires
the symbol to be one of four supported ones).  Inside a block, every chunk
performs one fetch; the fetch and the write sit in a `try` whose handler
logs and continues with the next chunk. -/

/-- Outcome of one adapter fetch call inside `backfill_coin`. -/
inductive FetchOutcome
  | rows (l : List MarketRow)
  | raise
deriving DecidableEq

/-- Outcome of one `write_market_data` call inside `backfill_coin`. -/
inductive WriteOutcome
  | count (n : Nat)
  | raise
deriving DecidableEq

/-- The chunk-start generation of `backfill_coin` (backfill.py:265-269),
over natural timestamps with a positive step. -/
def chunk_starts_aux (step : Nat) : Nat → Nat → Nat → List Nat
  | 0, _, _ => []
  | fuel + 1, cur, endT =>
    if cur < endT then cur :: chunk_starts_aux step fuel (cur + step) endT
    else []

/-- Chunk starts for the range `[startT, endT)` with the given step. -/
def chunk_starts (startT endT step : Nat) : List Nat :=
  chunk_starts_aux step (endT - startT) startT endT

/-- One venue block of `backfill_coin`: iterate the chunks; each chunk
issues exactly one fetch (recorded by its chunk start); a raised fetch, an
empty result, or a raised or zero-count write is absorbed and the loop
continues.  Returns the fetch trace, the `any_success` flag and the total
points written. -/
def venue_chunk_run (fetch : Nat → FetchOutcome)
    (write : Nat → List MarketRow → WriteOutcome) :
    List Nat → Bool → Nat → List Nat × Bool × Nat
  | [], succ, tot => ([], succ, tot)
  | chunk :: rest, succ, tot =>
    let st :=
      match fetch chunk with
      | FetchOutcome.raise => (succ, tot)
      | FetchOutcome.rows [] => (succ, tot)
      | FetchOutcome.rows (r :: rs) =>
        match write chunk (r :: rs) with
        | WriteOutcome.raise => (succ, tot)
        | WriteOutcome.count n => if 0 < n then (true, tot + n) else (succ, tot)
    let out := venue_chunk_run fetch write rest st.1 st.2
    (chunk :: out.1, out.2)

/-- The YFinance support set of `backfill_coin` (backfill.py:323). -/
def yfinance_supported (symbol : String) : Bool :=
  symbol == "BTCUSDT" || symbol == "ETHUSDT" || symbol == "XRPUSDT" ||
    symbol == "SOLUSDT"

/-- The fetch-call trace of `backfill_coin` for one symbol: the four venue
blocks in source order, each running only when its guard holds, with every
fetch tagged by its venue name. -/
def backfill_coin_events (fetch : String → Nat → FetchOutcome)
    (write : String → Nat → List MarketRow → WriteOutcome)
    (symbol : String) (exchanges : List String) (startT endT step : Nat) :
    List (String × Nat) :=
  let chunks := chunk_starts startT endT step
  (if exchanges.contains "bybit" then
    (venue_chunk_run (fetch "bybit") (write "bybit") chunks false 0).1.map
      (fun c => ("bybit", c))
  else []) ++
  (if exchanges.contains "yfinance" && yfinance_supported symbol then
    (venue_chunk_run (fetch "yfinance") (write "yfinance") chunks false 0).1.map
      (fun c => ("yfinance", c))
  else []) ++
  (if exchanges.contains "bitunix" then
    (venue_chunk_run (fetch "bitunix") (write "bitunix") chunks false 0).1.map
      (fun c => ("bitunix", c))
  else []) ++
  (if exchanges.contains "deribit" then
    (venue_chunk_run (fetch "deribit") (write "deribit") chunks false 0).1.map
      (fun c => ("deribit", c))
  else [])

/-- Number of fetch calls issued to one venue in a trace. -/
def fetch_calls_for (venue : String) (evs : List (String × Nat)) : Nat :=
  (evs.filter fun e => e.1 == venue).length

/-! ### Concrete adversarial venue responses used in the analysis -/

/-- A venue that always answers one candle and the looping continuation
token 100 (it never advances). -/
def bybit_looping_oracle : Nat → BybitKlineResp :=
  fun _ => BybitKlineResp.page [⟨50, 1, 1, 1, 1, 1, 1⟩] (some 100)

/-- A Bitunix venue that reports one candle stamped at time 100, whatever
window is requested. -/
def bitunix_out_of_range_oracle : Nat → Nat → BitunixResp :=
  fun _ _ => BitunixResp.resp 0 [⟨100, 1, 1, 1, 1, 1⟩]

end Laklak

namespace Laklak

/-! ### Helper lemmas -/

lemma chunksAux_join {α : Type} (n : Nat) (hn : 1 ≤ n) :
    ∀ fuel (l : List α), l.length ≤ fuel → (chunksAux n fuel l).flatten = l := by
  intro fuel
  induction fuel with
  | zero =>
    intro l hl
    have hnil : l = [] := List.length_eq_zero.mp (Nat.le_zero.mp hl)
    subst hnil
    rfl
  | succ f ih =>
    intro l hl
    match l with
    | [] => rfl
    | a :: rest =>
      have hdrop : (List.drop n (a :: rest)).length ≤ f := by
        rw [List.length_drop]
        have := List.length_cons a rest ▸ hl
        omega
      calc (chunksAux n (f + 1) (a :: rest)).flatten
          = (a :: rest).take n ++ (chunksAux n f ((a :: rest).drop n)).flatten := rfl
        _ = (a :: rest).take n ++ (a :: rest).drop n := by rw [ih _ hdrop]
        _ = a :: rest := List.take_append_drop n (a :: rest)

lemma chunksAux_mem_length {α : Type} (n : Nat) :
    ∀ fuel (l : List α) b, b ∈ chunksAux n fuel l → b.length ≤ n := by
  intro fuel
  induction fuel with
  | zero => intro l b hb; simp [chunksAux] at hb
  | succ f ih =>
    intro l b hb
    match l with
    | [] => simp [chunksAux] at hb
    | a :: rest =>
      rcases List.mem_cons.mp hb with h | h
      · subst h
        rw [List.length_take]
        exact Nat.min_le_left _ _
      · exact ih _ _ h

lemma migrate_batches_events_delete {α : Type} (w : List α → Bool) :
    ∀ bs, MigrationEvent.delete ∈ migrate_batches_events w bs →
      migrate_batches_events w bs = bs.map MigrationEvent.write ++ [MigrationEvent.delete] := by
  intro bs
  induction bs with
  | nil => intro _; rfl
  | cons b rest ih =>
    intro hd
    rcases List.mem_cons.mp hd with h | h
    · exact absurd h (by simp)
    · cases hw : w b with
      | false => rw [hw] at h; simp at h
      | true =>
        rw [hw] at h
        simp only [if_true] at h
        simp only [migrate_batches_events, hw, if_true, List.map_cons, List.cons_append,
          List.cons.injEq, true_and]
        exact ih h

lemma migrate_batches_events_write_mem {α : Type} (w : List α → Bool) :
    ∀ bs b, MigrationEvent.write b ∈ migrate_batches_events w bs → b ∈ bs := by
  intro bs
  induction bs with
  | nil => intro b hb; simp [migrate_batches_events] at hb
  | cons b0 rest ih =>
    intro b hb
    rcases List.mem_cons.mp hb with h | h
    · have : b = b0 := by injection h
      subst this
      exact List.mem_cons_self _ _
    · cases hw : w b0 with
      | false => rw [hw] at h; simp at h
      | true =>
        rw [hw] at h
        simp only [if_true] at h
        exact List.mem_cons_of_mem _ (ih b h)

/-! ### Theorems for the claims -/

/-- C2: the new symbol is a deterministic function of
`(old_symbol, exchange, data_type)`: for Deribit DVOL data the old symbol
with the quote currencies removed plus `_DVOL`, otherwise the old symbol
plus `_` plus the normalized upper-cased exchange suffix (Yahoo-Finance-like
names giving `YFINANCE`); in particular `('BTCUSDT','Deribit','dvol')` gives
`BTC_DVOL` and `('ETHUSDT','Bybit','kline')` gives `ETHUSDT_BYBIT`. -/
theorem calculate_new_symbol_correct :
    calculate_new_symbol "BTCUSDT" "Deribit" "dvol" = "BTC_DVOL" ∧
    calculate_new_symbol "ETHUSDT" "Bybit" "kline" = "ETHUSDT_BYBIT" ∧
    calculate_new_symbol "BTC-USD" "Yahoo Finance" "kline" = "BTC-USD_YFINANCE" ∧
    (∀ old ex dt, (lowerStr ex == "deribit" && dt == "dvol") = true →
      calculate_new_symbol old ex dt = strip_quote_suffix old ++ "_DVOL") ∧
    (∀ old ex dt, (lowerStr ex == "deribit" && dt == "dvol") = false →
      calculate_new_symbol old ex dt = old ++ "_" ++ exchange_suffix ex) := by
  refine ⟨by decide, by decide, by decide, ?_, ?_⟩
  · intro old ex dt h
    simp [calculate_new_symbol, h]
  · intro old ex dt h
    simp [calculate_new_symbol, h]

/-- C2 witness: the non-DVOL branch instantiated at a concrete triple. -/
theorem calculate_new_symbol_correct_witness :
    calculate_new_symbol "SOLUSDT" "Bitunix" "kline" =
      "SOLUSDT" ++ "_" ++ exchange_suffix "Bitunix" :=
  calculate_new_symbol_correct.2.2.2.2 "SOLUSDT" "Bitunix" "kline" (by decide)

/-- C1 counterexample: a store holding one Binance series is migrated to
`BTCUSDT_BINANCE`, and a second run does not skip it (the skip test only
recognizes the suffixes `_BYBIT`, `_YFINANCE` and `_DVOL`), so the second
run's plan is not empty — it renames to `BTCUSDT_BINANCE_BINANCE`. -/
theorem migration_second_run_nonempty_cex :
    migration_plan (run_migration [⟨"BTCUSDT", "Binance", "kline"⟩]) =
      [⟨"BTCUSDT_BINANCE", "BTCUSDT_BINANCE_BINANCE", "Binance", "kline"⟩] ∧
    migration_plan (run_migration [⟨"BTCUSDT", "Binance", "kline"⟩]) ≠ [] := by
  exact ⟨by decide, by decide⟩

/-- C1 amended: plan building skips exactly the combinations whose old
symbol already ends with one of the recognized suffixes `_BYBIT`,
`_YFINANCE`, `_DVOL`; hence a second run produces an empty plan for stores
whose first migration gave every series a recognized suffix (for example
Bybit, YFinance and Deribit-DVOL series), while other venue suffixes (such
as `_BINANCE`) are planned again. -/
theorem migration_replan_only_unrecognized :
    (∀ pairs : List SeriesTriple, ∀ e ∈ migration_plan pairs,
      already_migrated e.old_symbol = false) ∧
    (∀ store : List SeriesTriple,
      (∀ t ∈ store, already_migrated (migrate_step t).symbol = true) →
      migration_plan (run_migration store) = []) ∧
    migration_plan (run_migration
      [⟨"BTCUSDT", "Bybit", "kline"⟩, ⟨"BTC-USD", "YFinance", "kline"⟩,
        ⟨"BTCUSDT", "Deribit", "dvol"⟩]) = [] := by
  refine ⟨?_, ?_, by decide⟩
  · intro pairs e he
    simp only [migration_plan, List.mem_filterMap] at he
    obtain ⟨p, _, hpe⟩ := he
    cases h : already_migrated p.symbol with
    | false =>
      rw [h] at hpe
      simp only [Bool.false_eq_true, if_false, Option.some.injEq] at hpe
      rw [← hpe]
      exact h
    | true => rw [h] at hpe; simp at hpe
  · intro store hstore
    simp only [migration_plan, run_migration, List.filterMap_eq_nil_iff, List.mem_map]
    rintro e ⟨t, ht, rfl⟩
    rw [hstore t ht]
    simp

/-- C1 witness: the amended idempotence applied to a one-series Bybit store,
matching the spec's Example 3 re-run. -/
theorem migration_replan_only_unrecognized_witness :
    migration_plan (run_migration [⟨"ETHUSDT", "Bybit", "kline"⟩]) = [] :=
  migration_replan_only_unrecognized.2.1 _ (by decide)

/-- C6: per executed plan entry, a zero-point entry issues neither writes nor
a delete; when the delete happens it is the last event, preceded by the
writes of all batches in order; the batches partition the matched points and
each batch holds at most 5000 points. -/
theorem migrate_single_symbol_copy_then_delete {α : Type}
    (writeOk : List α → Bool) (points : List α) :
    (points = [] → migrate_single_symbol_events writeOk points = []) ∧
    (MigrationEvent.delete ∈ migrate_single_symbol_events writeOk points →
      migrate_single_symbol_events writeOk points =
        (chunksOf 5000 points).map MigrationEvent.write ++ [MigrationEvent.delete]) ∧
    (chunksOf 5000 points).flatten = points ∧
    (∀ b, MigrationEvent.write b ∈ migrate_single_symbol_events writeOk points →
      b.length ≤ 5000) := by
  refine ⟨?_, ?_, ?_, ?_⟩
  · intro h
    subst h
    rfl
  · intro hdel
    cases hp : points.isEmpty with
    | true =>
      rw [migrate_single_symbol_events, hp] at hdel
      simp at hdel
    | false =>
      rw [migrate_single_symbol_events, hp] at hdel ⊢
      simp only [Bool.false_eq_true, if_false] at hdel ⊢
      exact migrate_batches_events_delete writeOk _ hdel
  · exact chunksAux_join 5000 (by omega) points.length points (Nat.le_refl _)
  · intro b hb
    cases hp : points.isEmpty with
    | true =>
      rw [migrate_single_symbol_events, hp] at hb
      simp at hb
    | false =>
      rw [migrate_single_symbol_events, hp] at hb
      simp only [Bool.false_eq_true, if_false] at hb
      exact chunksAux_mem_length 5000 _ _ _
        (migrate_batches_events_write_mem writeOk _ _ hb)

/-- C6 witness: a two-point entry with a succeeding writer produces exactly
one bounded write batch followed by the delete. -/
theorem migrate_single_symbol_copy_then_delete_witness :
    migrate_single_symbol_events (fun _ : List Nat => true) [7, 9] =
      (chunksOf 5000 [7, 9]).map MigrationEvent.write ++ [MigrationEvent.delete] :=
  (migrate_single_symbol_copy_then_delete (fun _ : List Nat => true) [7, 9]).2.1
    (by decide)

/-- C7: a key never set reads as `"unknown"`, a key just set reads as the
value set (the newest binding wins), and setting one key leaves every other
`(symbol, exchange)` key unchanged — same-symbol different-exchange entries
are independent.  The writer module is absent from the sources; the cache is
modelled from the spec. -/
theorem funding_period_cache_spec :
    (∀ s e c, (∀ v, ((s, e), v) ∉ c) → get_funding_period s e c = "unknown") ∧
    (∀ s e v c, get_funding_period s e (set_funding_period s e v c) = v) ∧
    (∀ s e s' e' v c, (s, e) ≠ (s', e') →
      get_funding_period s e (set_funding_period s' e' v c) =
        get_funding_period s e c) := by
  refine ⟨?_, ?_, ?_⟩
  · intro s e c
    induction c with
    | nil => intro _; rfl
    | cons kv rest ih =>
      intro h
      obtain ⟨k, v⟩ := kv
      have hk : (s, e) ≠ k := by
        intro he
        exact h v (by rw [he]; exact List.mem_cons_self _ _)
      have : get_funding_period s e ((k, v) :: rest) = get_funding_period s e rest := by
        simp [get_funding_period, period_lookup, hk]
      rw [this]
      exact ih fun v' hv' => h v' (List.mem_cons_of_mem _ hv')
  · intro s e v c
    simp [get_funding_period, set_funding_period, period_lookup]
  · intro s e s' e' v c h
    simp [get_funding_period, set_funding_period, period_lookup, h]

/-- C7 witness: miss on the empty cache, read-back of a set key, and
independence of `(BTCUSDT, bybit)` from a later `(BTCUSDT, bitunix)` set. -/
theorem funding_period_cache_spec_witness :
    get_funding_period "UNKNOWN" "unknown" [] = "unknown" ∧
    get_funding_period "ETHUSDT" "bybit"
      (set_funding_period "ETHUSDT" "bybit" "4" []) = "4" ∧
    get_funding_period "BTCUSDT" "bybit"
      (set_funding_period "BTCUSDT" "bitunix" "8"
        (set_funding_period "BTCUSDT" "bybit" "7" [])) = "7" :=
  ⟨funding_period_cache_spec.1 "UNKNOWN" "unknown" [] (by simp),
    funding_period_cache_spec.2.1 "ETHUSDT" "bybit" "4" [],
    (funding_period_cache_spec.2.2 "BTCUSDT" "bybit" "BTCUSDT" "bitunix" "8"
        (set_funding_period "BTCUSDT" "bybit" "7" []) (by simp)).trans
      (funding_period_cache_spec.2.1 "BTCUSDT" "bybit" "7" [])⟩

/-! ### Backfill fetch-call counting (C3) -/

lemma venue_chunk_run_trace (f : Nat → FetchOutcome)
    (w : Nat → List MarketRow → WriteOutcome) :
    ∀ chunks succ tot, (venue_chunk_run f w chunks succ tot).1 = chunks := by
  intro chunks
  induction chunks with
  | nil => intro succ tot; rfl
  | cons c rest ih =>
    intro succ tot
    simp only [venue_chunk_run]
    rw [ih]

lemma fetch_calls_for_append (v : String) (l1 l2 : List (String × Nat)) :
    fetch_calls_for v (l1 ++ l2) = fetch_calls_for v l1 + fetch_calls_for v l2 := by
  simp [fetch_calls_for, List.filter_append]

lemma fetch_calls_for_block (v w : String) (b : Bool) (l : List Nat) :
    fetch_calls_for v (if b then l.map (fun c => (w, c)) else []) =
      if b && (w == v) then l.length else 0 := by
  cases b with
  | false => simp [fetch_calls_for]
  | true =>
    simp only [if_true, Bool.true_and]
    induction l with
    | nil => cases h : w == v <;> simp [fetch_calls_for, h]
    | cons c rest ih =>
      cases h : w == v <;>
        simp only [h, if_true, if_false, fetch_calls_for, List.map_cons,
          List.filter_cons] at ih ⊢ <;>
        simp [h, ih]

/-- C3 amended: for every oracle behaviour (including fetches and writes
that raise on every window), `backfill_coin` issues exactly one fetch per
generated chunk to each venue it dispatches: Bybit, Bitunix and Deribit
when listed in the symbol's exchange list, and YFinance when listed and the
symbol is one of the four supported ones.  The count does not depend on the
fetch or write outcomes, so a failure on one window cannot reduce the calls
made for later windows or other venues. -/
theorem backfill_fetch_calls_per_venue
    (fetch : String → Nat → FetchOutcome)
    (write : String → Nat → List MarketRow → WriteOutcome)
    (symbol : String) (exchanges : List String) (startT endT step : Nat) :
    (exchanges.contains "bybit" = true →
      fetch_calls_for "bybit"
          (backfill_coin_events fetch write symbol exchanges startT endT step) =
        (chunk_starts startT endT step).length) ∧
    ((exchanges.contains "yfinance" && yfinance_supported symbol) = true →
      fetch_calls_for "yfinance"
          (backfill_coin_events fetch write symbol exchanges startT endT step) =
        (chunk_starts startT endT step).length) ∧
    (exchanges.contains "bitunix" = true →
      fetch_calls_for "bitunix"
          (backfill_coin_events fetch write symbol exchanges startT endT step) =
        (chunk_starts startT endT step).length) ∧
    (exchanges.contains "deribit" = true →
      fetch_calls_for "deribit"
          (backfill_coin_events fetch write symbol exchanges startT endT step) =
        (chunk_starts startT endT step).length) := by
  have hblocks : ∀ v : String,
      fetch_calls_for v
          (backfill_coin_events fetch write symbol exchanges startT endT step) =
        (((if exchanges.contains "bybit" && ("bybit" == v) then
            (chunk_starts startT endT step).length else 0) +
          (if (exchanges.contains "yfinance" && yfinance_supported symbol) &&
              ("yfinance" == v) then (chunk_starts startT endT step).length else 0)) +
          (if exchanges.contains "bitunix" && ("bitunix" == v) then
            (chunk_starts startT endT step).length else 0)) +
          (if exchanges.contains "deribit" && ("deribit" == v) then
            (chunk_starts startT endT step).length else 0) := by
    intro v
    simp only [backfill_coin_events, venue_chunk_run_trace, fetch_calls_for_append,
      fetch_calls_for_block, Bool.and_assoc]
  refine ⟨?_, ?_, ?_, ?_⟩
  · intro h
    have b1 : (("bybit" : String) == "bybit") = true := by decide
    have b2 : (("yfinance" : String) == "bybit") = false := by decide
    have b3 : (("bitunix" : String) == "bybit") = false := by decide
    have b4 : (("deribit" : String) == "bybit") = false := by decide
    have hm : "bybit" ∈ exchanges := by simpa using h
    rw [hblocks "bybit"]
    simp [hm, b1, b2, b3, b4]
  · intro h
    have b1 : (("bybit" : String) == "yfinance") = false := by decide
    have b2 : (("yfinance" : String) == "yfinance") = true := by decide
    have b3 : (("bitunix" : String) == "yfinance") = false := by decide
    have b4 : (("deribit" : String) == "yfinance") = false := by decide
    obtain ⟨h1, h2⟩ : "yfinance" ∈ exchanges ∧ yfinance_supported symbol = true := by
      simpa using h
    rw [hblocks "yfinance"]
    simp [h1, h2, b1, b2, b3, b4]
  · intro h
    have b1 : (("bybit" : String) == "bitunix") = false := by decide
    have b2 : (("yfinance" : String) == "bitunix") = false := by decide
    have b3 : (("bitunix" : String) == "bitunix") = true := by decide
    have b4 : (("deribit" : String) == "bitunix") = false := by decide
    have hm : "bitunix" ∈ exchanges := by simpa using h
    rw [hblocks "bitunix"]
    simp [hm, b1, b2, b3, b4]
  · intro h
    have b1 : (("bybit" : String) == "deribit") = false := by decide
    have b2 : (("yfinance" : String) == "deribit") = false := by decide
    have b3 : (("bitunix" : String) == "deribit") = false := by decide
    have b4 : (("deribit" : String) == "deribit") = true := by decide
    have hm : "deribit" ∈ exchanges := by simpa using h
    rw [hblocks "deribit"]
    simp [hm, b1, b2, b3, b4]

/-- C3 counterexample: `yfinance` is in DOGEUSDT's configured exchange list
and the range splits into one window, yet `backfill_coin` issues zero
YFinance fetch calls for it (the symbol is outside the supported set), not
one per window as claimed. -/
theorem backfill_fetch_calls_cex :
    (["yfinance"] : List String).contains "yfinance" = true ∧
    (chunk_starts 0 10 10).length = 1 ∧
    fetch_calls_for "yfinance"
      (backfill_coin_events (fun _ _ => FetchOutcome.rows [])
        (fun _ _ _ => WriteOutcome.count 0) "DOGEUSDT" ["yfinance"] 0 10 10) = 0 := by
  exact ⟨by decide, by decide, by decide⟩

/-- C3 witness: three windows, a Bybit fetch that raises on every window —
still exactly three Bybit fetch calls. -/
theorem backfill_fetch_calls_per_venue_witness :
    fetch_calls_for "bybit"
      (backfill_coin_events (fun _ _ => FetchOutcome.raise)
        (fun _ _ _ => WriteOutcome.raise) "BTCUSDT" ["bybit"] 0 30 10) =
      (chunk_starts 0 30 10).length :=
  (backfill_fetch_calls_per_venue (fun _ _ => FetchOutcome.raise)
    (fun _ _ _ => WriteOutcome.raise) "BTCUSDT" ["bybit"] 0 30 10).1 (by decide)

/-! ### Adapter error handling (C4) -/

/-- C4: a transport or decode error arising anywhere inside a venue fetch
(`raise` responses, whose handlers are bybit.py:214-219, deribit.py:107-119,
bitunix.py:111-119) is caught by the adapter and turned into an empty point
sequence; it is never propagated to the caller. -/
theorem adapter_fetch_catches_errors :
    (∀ (oracle : Nat → BybitKlineResp) fuel startTs endTs,
      (∃ u, bybit_kline_loop oracle startTs fuel endTs [] = some (Except.error u)) →
      bybit_fetch_historical_kline oracle fuel startTs endTs = some []) ∧
    (∀ (oracle : Nat → DeribitResp) fuel startTs endTs,
      (∃ u, deribit_dvol_loop oracle startTs fuel endTs [] = some (Except.error u)) →
      deribit_fetch_historical_dvol oracle fuel startTs endTs = some []) ∧
    (∀ (oracle : Nat → Nat → BitunixResp) startTs endTs,
      oracle startTs endTs = BitunixResp.raise →
      bitunix_fetch_historical_kline oracle startTs endTs = []) := by
  refine ⟨?_, ?_, ?_⟩
  · rintro oracle fuel startTs endTs ⟨u, h⟩
    simp [bybit_fetch_historical_kline, h]
  · rintro oracle fuel startTs endTs ⟨u, h⟩
    simp [deribit_fetch_historical_dvol, h]
  · intro oracle startTs endTs h
    simp [bitunix_fetch_historical_kline, h]

/-- C4 witness: immediately raising venues yield empty sequences from all
three adapters. -/
theorem adapter_fetch_catches_errors_witness :
    bybit_fetch_historical_kline (fun _ => BybitKlineResp.raise) 1 0 1 = some [] ∧
    deribit_fetch_historical_dvol (fun _ => DeribitResp.raise) 1 0 1 = some [] ∧
    bitunix_fetch_historical_kline (fun _ _ => BitunixResp.raise) 0 1 = [] :=
  ⟨adapter_fetch_catches_errors.1 (fun _ => BybitKlineResp.raise) 1 0 1 ⟨(), rfl⟩,
    adapter_fetch_catches_errors.2.1 (fun _ => DeribitResp.raise) 1 0 1 ⟨(), rfl⟩,
    adapter_fetch_catches_errors.2.2 (fun _ _ => BitunixResp.raise) 0 1 rfl⟩

/-! ### Pagination termination (C5) -/

lemma bybit_looping_oracle_none :
    ∀ fuel acc, bybit_kline_loop bybit_looping_oracle 0 fuel 100 acc = none := by
  intro fuel
  induction fuel with
  | zero => intro acc; rfl
  | succ f ih =>
    intro acc
    simp only [bybit_kline_loop, bybit_looping_oracle]
    rw [if_neg (by omega)]
    exact ih _

/-- C5 counterexample: the Bybit kline paging loop has no iteration cap and
no short-page check; against a venue that keeps returning a non-empty page
with the non-advancing continuation token 100, the loop over the window
`(0, 100)` never exits — there is no number of iterations after which it
has stopped, refuting the claimed guard. -/
theorem bybit_kline_loop_divergence_cex :
    bybit_loop_diverges bybit_looping_oracle 0 100 :=
  fun fuel => bybit_looping_oracle_none fuel []

/-- C5 amended: each paging loop stops on a missing continuation token, an
empty page, an error payload, or (Binance) a short page, and it terminates
whenever every continuation the venue returns strictly advances the cursor
(decreasing `end` for Bybit kline and Deribit DVOL, increasing `startTime`
for Binance); but there is no hard iteration cap, so a non-advancing
continuation token makes the Bybit kline and Deribit DVOL loops run
forever (and a full non-advancing page does the same to the Binance loop). -/
theorem paging_loops_terminate_on_advancing_cursor :
    (∀ (oracle : Nat → BybitKlineResp) startTs endTs,
      (∀ x cs c, oracle x = BybitKlineResp.page cs (some c) → c < x) →
      bybit_loop_terminates oracle startTs endTs) ∧
    (∀ (oracle : Nat → DeribitResp) startTs endTs,
      (∀ x cs c, oracle x = DeribitResp.page cs (some c) → c < x) →
      deribit_loop_terminates oracle startTs endTs) ∧
    (∀ (oracle : Nat → BinanceResp) startTs endTs,
      (∀ x r rs, oracle x = BinanceResp.page (r :: rs) →
        x ≤ ((r :: rs).getLastD r).closeTime) →
      binance_loop_terminates oracle startTs endTs) := by
  refine ⟨?_, ?_, ?_⟩
  · intro oracle s e h
    suffices H : ∀ n acc, ∃ fuel,
        (bybit_kline_loop oracle s fuel n acc).isSome = true from H e []
    intro n
    induction n using Nat.strong_induction_on with
    | _ n ih =>
      intro acc
      by_cases hns : n ≤ s
      · exact ⟨1, by simp [bybit_kline_loop, hns]⟩
      · cases ho : oracle n with
        | raise => exact ⟨1, by simp [bybit_kline_loop, hns, ho]⟩
        | noList => exact ⟨1, by simp [bybit_kline_loop, hns, ho]⟩
        | page cs cont =>
          match cs, cont with
          | [], _ => exact ⟨1, by simp [bybit_kline_loop, hns, ho]⟩
          | c0 :: cs0, none => exact ⟨1, by simp [bybit_kline_loop, hns, ho]⟩
          | c0 :: cs0, some nxt =>
            obtain ⟨f, hf⟩ := ih nxt (h n (c0 :: cs0) nxt ho) (acc ++ (c0 :: cs0))
            exact ⟨f + 1, by simpa [bybit_kline_loop, hns, ho] using hf⟩
  · intro oracle s e h
    suffices H : ∀ n acc, ∃ fuel,
        (deribit_dvol_loop oracle s fuel n acc).isSome = true from H e []
    intro n
    induction n using Nat.strong_induction_on with
    | _ n ih =>
      intro acc
      by_cases hns : n ≤ s
      · exact ⟨1, by simp [deribit_dvol_loop, hns]⟩
      · cases ho : oracle n with
        | raise => exact ⟨1, by simp [deribit_dvol_loop, hns, ho]⟩
        | noData => exact ⟨1, by simp [deribit_dvol_loop, hns, ho]⟩
        | page cs cont =>
          match cs, cont with
          | [], _ => exact ⟨1, by simp [deribit_dvol_loop, hns, ho]⟩
          | c0 :: cs0, none => exact ⟨1, by simp [deribit_dvol_loop, hns, ho]⟩
          | c0 :: cs0, some nxt =>
            obtain ⟨f, hf⟩ := ih nxt (h n (c0 :: cs0) nxt ho) (acc ++ (c0 :: cs0))
            exact ⟨f + 1, by simpa [deribit_dvol_loop, hns, ho] using hf⟩
  · intro oracle s e h
    suffices H : ∀ k cur acc, e - cur ≤ k → ∃ fuel,
        (binance_kline_loop oracle e fuel cur acc).isSome = true from
      (H (e - s) s [] (Nat.le_refl _)).imp fun _ hf => hf
    intro k
    induction k with
    | zero =>
      intro cur acc hk
      have hce : ¬ cur < e := by omega
      exact ⟨1, by simp [binance_kline_loop, hce]⟩
    | succ k ih =>
      intro cur acc hk
      by_cases hce : cur < e
      · cases ho : oracle cur with
        | raise => exact ⟨1, by simp [binance_kline_loop, hce, ho]⟩
        | errorCode => exact ⟨1, by simp [binance_kline_loop, hce, ho]⟩
        | page entries =>
          match entries with
          | [] => exact ⟨1, by simp [binance_kline_loop, hce, ho]⟩
          | r :: rs =>
            by_cases hlen : (r :: rs).length < 1500
            · exact ⟨1, by
                simp [binance_kline_loop, hce, ho,
                  show rs.length + 1 < 1500 by simpa using hlen]⟩
            · have hadv : cur ≤ ((r :: rs).getLastD r).closeTime := h cur r rs ho
              have hk2 : e - (((r :: rs).getLastD r).closeTime + 1) ≤ k := by omega
              obtain ⟨f, hf⟩ := ih (((r :: rs).getLastD r).closeTime + 1)
                (acc ++ (r :: rs)) hk2
              exact ⟨f + 1, by
                simpa [binance_kline_loop, hce, ho,
                  show ¬ rs.length + 1 < 1500 by simpa using hlen] using hf⟩
      · exact ⟨1, by simp [binance_kline_loop, hce]⟩

/-- C5 witness: venues whose first response already ends the paging (no
continuation / error payload) satisfy the advancing-cursor condition, and
all three loops terminate on them. -/
theorem paging_loops_terminate_witness :
    bybit_loop_terminates (fun _ => BybitKlineResp.noList) 0 100 ∧
    deribit_loop_terminates (fun _ => DeribitResp.noData) 0 100 ∧
    binance_loop_terminates (fun _ => BinanceResp.errorCode) 0 100 :=
  ⟨paging_loops_terminate_on_advancing_cursor.1 (fun _ => BybitKlineResp.noList)
      0 100 (by intro x cs c hc; simp at hc),
    paging_loops_terminate_on_advancing_cursor.2.1 (fun _ => DeribitResp.noData)
      0 100 (by intro x cs c hc; simp at hc),
    paging_loops_terminate_on_advancing_cursor.2.2 (fun _ => BinanceResp.errorCode)
      0 100 (by intro x r rs hc; simp at hc)⟩

/-! ### Row provenance of adapter output (C8) -/

lemma mem_insertByTime (p q : MarketRow) :
    ∀ l, q ∈ insertByTime p l ↔ q = p ∨ q ∈ l := by
  intro l
  induction l with
  | nil => simp [insertByTime]
  | cons a rest ih =>
    by_cases h : p.time ≤ a.time
    · simp [insertByTime, h]
    · simp only [insertByTime, if_neg h, List.mem_cons, ih]
      tauto

lemma mem_sortByTime (q : MarketRow) : ∀ l, q ∈ sortByTime l ↔ q ∈ l := by
  intro l
  induction l with
  | nil => simp [sortByTime]
  | cons a rest ih =>
    have hs : sortByTime (a :: rest) = insertByTime a (sortByTime rest) := rfl
    rw [hs, mem_insertByTime]
    simp [ih]

lemma mem_dedupTimeKeepLast (p : MarketRow) :
    ∀ l, p ∈ dedupTimeKeepLast l → p ∈ l := by
  intro l
  induction l with
  | nil => intro h; simp [dedupTimeKeepLast] at h
  | cons r rest ih =>
    intro h
    cases hd : rest.any (fun q => q.time == r.time) with
    | true =>
      rw [dedupTimeKeepLast, hd] at h
      simp only [if_true] at h
      exact List.mem_cons_of_mem _ (ih h)
    | false =>
      rw [dedupTimeKeepLast, hd] at h
      simp only [Bool.false_eq_true, if_false] at h
      rcases List.mem_cons.mp h with h1 | h1
      · exact h1 ▸ List.mem_cons_self _ _
      · exact List.mem_cons_of_mem _ (ih h1)

lemma bybit_kline_loop_ok_mem (oracle : Nat → BybitKlineResp) (startTs : Nat) :
    ∀ fuel currentEnd acc res,
      bybit_kline_loop oracle startTs fuel currentEnd acc = some (Except.ok res) →
      ∀ c ∈ res, c ∈ acc ∨
        ∃ x cs cont, oracle x = BybitKlineResp.page cs cont ∧ c ∈ cs := by
  intro fuel
  induction fuel with
  | zero =>
    intro n acc res h
    simp [bybit_kline_loop] at h
  | succ f ih =>
    intro n acc res h c hc
    by_cases hns : n ≤ startTs
    · have h2 : acc = res := by
        have h' : (some (Except.ok acc) : Option (Except Unit (List BybitCandle))) =
            some (Except.ok res) := by
          rw [← h]; simp [bybit_kline_loop, hns]
        simpa using h'
      exact Or.inl (by rwa [h2])
    · cases ho : oracle n with
      | raise =>
        have h' : (some (Except.error ()) : Option (Except Unit (List BybitCandle))) =
            some (Except.ok res) := by
          rw [← h]; simp [bybit_kline_loop, hns, ho]
        simp at h'
      | noList =>
        have h2 : acc = res := by
          have h' : (some (Except.ok acc) : Option (Except Unit (List BybitCandle))) =
              some (Except.ok res) := by
            rw [← h]; simp [bybit_kline_loop, hns, ho]
          simpa using h'
        exact Or.inl (by rwa [h2])
      | page cs cont =>
        match cs, cont with
        | [], cont =>
          have h2 : acc = res := by
            have h' : (some (Except.ok acc) : Option (Except Unit (List BybitCandle))) =
                some (Except.ok res) := by
              rw [← h]; simp [bybit_kline_loop, hns, ho]
            simpa using h'
          exact Or.inl (by rwa [h2])
        | c0 :: cs0, none =>
          have h2 : acc ++ (c0 :: cs0) = res := by
            have h' : (some (Except.ok (acc ++ (c0 :: cs0))) :
                Option (Except Unit (List BybitCandle))) = some (Except.ok res) := by
              rw [← h]; simp [bybit_kline_loop, hns, ho]
            simpa using h'
          rcases List.mem_append.mp (by rw [h2]; exact hc) with hin | hin
          · exact Or.inl hin
          · exact Or.inr ⟨n, c0 :: cs0, none, ho, hin⟩
        | c0 :: cs0, some nxt =>
          have h' : bybit_kline_loop oracle startTs f nxt (acc ++ (c0 :: cs0)) =
              some (Except.ok res) := by
            rw [← h]; simp [bybit_kline_loop, hns, ho]
          rcases ih nxt (acc ++ (c0 :: cs0)) res h' c hc with hin | hex
          · rcases List.mem_append.mp hin with h1 | h1
            · exact Or.inl h1
            · exact Or.inr ⟨n, c0 :: cs0, some nxt, ho, h1⟩
          · exact Or.inr hex

/-- C8 counterexample: on the window `[0, 100)` the Bitunix adapter returns
the venue's candle stamped at time 100 unchanged, so not every returned
point satisfies `t < end`: the output is not clipped to `[start, end)`. -/
theorem adapter_output_not_clipped_cex :
    bitunix_fetch_historical_kline bitunix_out_of_range_oracle 0 100 =
      [⟨100, 1, 1, 1, 1, 1⟩] ∧
    ((bitunix_fetch_historical_kline bitunix_out_of_range_oracle 0 100).all
      fun p => decide (p.time < 100)) = false := by
  exact ⟨by decide, by decide⟩

/-- C8 amended: the adapters forward the start and end instants as request
parameters but do not filter the response by timestamp: every returned
point is exactly the image of a candle the venue reported (Bitunix for its
single request, Bybit for some page of the paging loop), whatever its
timestamp. -/
theorem adapter_rows_from_venue :
    (∀ (oracle : Nat → Nat → BitunixResp) startTs endTs,
      ∀ p ∈ bitunix_fetch_historical_kline oracle startTs endTs,
      ∃ code data c, oracle startTs endTs = BitunixResp.resp code data ∧
        c ∈ data ∧ p = bitunixCandleRow c) ∧
    (∀ (oracle : Nat → BybitKlineResp) fuel startTs endTs rows,
      bybit_fetch_historical_kline oracle fuel startTs endTs = some rows →
      ∀ p ∈ rows, ∃ x cs cont c, oracle x = BybitKlineResp.page cs cont ∧
        c ∈ cs ∧ p = bybitCandleRow c) := by
  constructor
  · intro o s e p hp
    cases ho : o s e with
    | raise =>
      simp [bitunix_fetch_historical_kline, ho] at hp
    | resp code data =>
      by_cases hcode : code ≠ 0
      · simp [bitunix_fetch_historical_kline, ho, hcode] at hp
      · cases data with
        | nil =>
          simp [bitunix_fetch_historical_kline, ho, hcode] at hp
        | cons c0 cs0 =>
          have hp' : p ∈ sortByTime ((c0 :: cs0).map bitunixCandleRow) := by
            simpa [bitunix_fetch_historical_kline, ho, hcode] using hp
          rw [mem_sortByTime] at hp'
          obtain ⟨c, hcmem, rfl⟩ := List.mem_map.mp hp'
          exact ⟨code, c0 :: cs0, c, rfl, hcmem, rfl⟩
  · intro o fuel s e rows h p hp
    cases hl : bybit_kline_loop o s fuel e [] with
    | none => simp [bybit_fetch_historical_kline, hl] at h
    | some exc =>
      cases exc with
      | error u =>
        simp only [bybit_fetch_historical_kline, hl] at h
        obtain rfl : ([] : List MarketRow) = rows := by simpa using h
        simp at hp
      | ok lst =>
        cases lst with
        | nil =>
          simp only [bybit_fetch_historical_kline, hl] at h
          obtain rfl : ([] : List MarketRow) = rows := by simpa using h
          simp at hp
        | cons c0 cs0 =>
          simp only [bybit_fetch_historical_kline, hl] at h
          obtain rfl : sortByTime ((c0 :: cs0).map bybitCandleRow) = rows := by
            simpa using h
          rw [mem_sortByTime] at hp
          obtain ⟨c, hcmem, rfl⟩ := List.mem_map.mp hp
          rcases bybit_kline_loop_ok_mem o s fuel e [] (c0 :: cs0) hl c hcmem with
            hin | ⟨x, cs, cont, hx, hcs⟩
          · simp at hin
          · exact ⟨x, cs, cont, c, hx, hcs, rfl⟩

/-- C8 witness: the provenance of the out-of-range row of the
counterexample's venue. -/
theorem adapter_rows_from_venue_witness :
    ∃ code data c, bitunix_out_of_range_oracle 0 100 = BitunixResp.resp code data ∧
      c ∈ data ∧ (⟨100, 1, 1, 1, 1, 1⟩ : MarketRow) = bitunixCandleRow c :=
  adapter_rows_from_venue.1 bitunix_out_of_range_oracle 0 100
    ⟨100, 1, 1, 1, 1, 1⟩ (by decide)

/-! ### Funding-rate row shape and scaling (C9, C10) -/

lemma bybit_funding_loop_ok_mem (oracle : Nat → BybitFundingResp) (endTs : Nat) :
    ∀ fuel cur acc res,
      bybit_funding_loop oracle endTs fuel cur acc = some (Except.ok res) →
      ∀ en ∈ res, en ∈ acc ∨
        ∃ x entries, oracle x = BybitFundingResp.page entries ∧ en ∈ entries := by
  intro fuel
  induction fuel with
  | zero => intro cur acc res h; simp [bybit_funding_loop] at h
  | succ f ih =>
    intro cur acc res h en hen
    by_cases hce : cur < endTs
    · cases ho : oracle cur with
      | raise =>
        have h' : (some (Except.error ()) :
            Option (Except Unit (List BybitFundingEntry))) = some (Except.ok res) := by
          rw [← h]; simp [bybit_funding_loop, hce, ho]
        simp at h'
      | apiError =>
        have h2 : acc = res := by
          have h' : (some (Except.ok acc) :
              Option (Except Unit (List BybitFundingEntry))) = some (Except.ok res) := by
            rw [← h]; simp [bybit_funding_loop, hce, ho]
          simpa using h'
        exact Or.inl (by rwa [h2])
      | noResult =>
        have h2 : acc = res := by
          have h' : (some (Except.ok acc) :
              Option (Except Unit (List BybitFundingEntry))) = some (Except.ok res) := by
            rw [← h]; simp [bybit_funding_loop, hce, ho]
          simpa using h'
        exact Or.inl (by rwa [h2])
      | page entries =>
        match entries with
        | [] =>
          have h2 : acc = res := by
            have h' : (some (Except.ok acc) :
                Option (Except Unit (List BybitFundingEntry))) = some (Except.ok res) := by
              rw [← h]; simp [bybit_funding_loop, hce, ho]
            simpa using h'
          exact Or.inl (by rwa [h2])
        | e0 :: es0 =>
          by_cases hstop : ((e0 :: es0).getLast?.getD e0).fundingRateTimestamp ≤ cur ∨
              es0.length + 1 < 200
          · have h2 : acc ++ (e0 :: es0) = res := by
              have h' : (some (Except.ok (acc ++ (e0 :: es0))) :
                  Option (Except Unit (List BybitFundingEntry))) = some (Except.ok res) := by
                rw [← h]; simp [bybit_funding_loop, hce, ho, hstop]
              simpa using h'
            rcases List.mem_append.mp (by rw [h2]; exact hen) with hin | hin
            · exact Or.inl hin
            · exact Or.inr ⟨cur, e0 :: es0, ho, hin⟩
          · have h' : bybit_funding_loop oracle endTs f
                (((e0 :: es0).getLastD e0).fundingRateTimestamp) (acc ++ (e0 :: es0)) =
                some (Except.ok res) := by
              rw [← h]; simp [bybit_funding_loop, hce, ho, hstop]
            rcases ih _ _ _ h' en hen with hin | hex
            · rcases List.mem_append.mp hin with h1 | h1
              · exact Or.inl h1
              · exact Or.inr ⟨cur, e0 :: es0, ho, h1⟩
            · exact Or.inr hex
    · have h2 : acc = res := by
        have h' : (some (Except.ok acc) :
            Option (Except Unit (List BybitFundingEntry))) = some (Except.ok res) := by
          rw [← h]; simp [bybit_funding_loop, hce]
        simpa using h'
      exact Or.inl (by rwa [h2])

lemma binance_funding_loop_ok_mem (oracle : Nat → BinanceFundingResp) (endTs : Nat) :
    ∀ fuel cur acc res,
      binance_funding_loop oracle endTs fuel cur acc = some (Except.ok res) →
      ∀ en ∈ res, en ∈ acc ∨
        ∃ x entries, oracle x = BinanceFundingResp.page entries ∧ en ∈ entries := by
  intro fuel
  induction fuel with
  | zero => intro cur acc res h; simp [binance_funding_loop] at h
  | succ f ih =>
    intro cur acc res h en hen
    by_cases hce : cur < endTs
    · cases ho : oracle cur with
      | raise =>
        have h' : (some (Except.error ()) :
            Option (Except Unit (List BinanceFundingEntry))) = some (Except.ok res) := by
          rw [← h]; simp [binance_funding_loop, hce, ho]
        simp at h'
      | errorCode =>
        have h2 : acc = res := by
          have h' : (some (Except.ok acc) :
              Option (Except Unit (List BinanceFundingEntry))) = some (Except.ok res) := by
            rw [← h]; simp [binance_funding_loop, hce, ho]
          simpa using h'
        exact Or.inl (by rwa [h2])
      | page entries =>
        match entries with
        | [] =>
          have h2 : acc = res := by
            have h' : (some (Except.ok acc) :
                Option (Except Unit (List BinanceFundingEntry))) = some (Except.ok res) := by
              rw [← h]; simp [binance_funding_loop, hce, ho]
            simpa using h'
          exact Or.inl (by rwa [h2])
        | e0 :: es0 =>
          by_cases hlen : (e0 :: es0).length < 1000
          · have h2 : acc ++ (e0 :: es0) = res := by
              have h' : (some (Except.ok (acc ++ (e0 :: es0))) :
                  Option (Except Unit (List BinanceFundingEntry))) =
                  some (Except.ok res) := by
                rw [← h]
                simp [binance_funding_loop, hce, ho,
                  show es0.length + 1 < 1000 by simpa using hlen]
              simpa using h'
            rcases List.mem_append.mp (by rw [h2]; exact hen) with hin | hin
            · exact Or.inl hin
            · exact Or.inr ⟨cur, e0 :: es0, ho, hin⟩
          · have h' : binance_funding_loop oracle endTs f
                (((e0 :: es0).getLastD e0).fundingTime + 1) (acc ++ (e0 :: es0)) =
                some (Except.ok res) := by
              rw [← h]
              simp [binance_funding_loop, hce, ho,
                show ¬ es0.length + 1 < 1000 by simpa using hlen]
            rcases ih _ _ _ h' en hen with hin | hex
            · rcases List.mem_append.mp hin with h1 | h1
              · exact Or.inl h1
              · exact Or.inr ⟨cur, e0 :: es0, ho, h1⟩
            · exact Or.inr hex
    · have h2 : acc = res := by
        have h' : (some (Except.ok acc) :
            Option (Except Unit (List BinanceFundingEntry))) = some (Except.ok res) := by
          rw [← h]; simp [binance_funding_loop, hce]
        simpa using h'
      exact Or.inl (by rwa [h2])

/-- C9: every row returned by the four funding-rate fetchers carries the
funding-rate value in all four OHLC fields (`open = high = low = close`)
and a zero volume. -/
theorem funding_rows_flat :
    (∀ (oracle : Nat → BybitFundingResp) fuel startTs endTs rows,
      bybit_fetch_funding_rate oracle fuel startTs endTs = some rows →
      ∀ p ∈ rows, p.opn = p.close ∧ p.high = p.close ∧ p.low = p.close ∧
        p.volume = 0) ∧
    (∀ (oracle : Nat → BinanceFundingResp) fuel startTs endTs rows,
      binance_fetch_funding_rate oracle fuel startTs endTs = some rows →
      ∀ p ∈ rows, p.opn = p.close ∧ p.high = p.close ∧ p.low = p.close ∧
        p.volume = 0) ∧
    (∀ resp, ∀ p ∈ hyperliquid_fetch_funding_rate resp,
      p.opn = p.close ∧ p.high = p.close ∧ p.low = p.close ∧ p.volume = 0) ∧
    (∀ resp nowTs, ∀ p ∈ bitunix_fetch_funding_rate resp nowTs,
      p.opn = p.close ∧ p.high = p.close ∧ p.low = p.close ∧ p.volume = 0) := by
  refine ⟨?_, ?_, ?_, ?_⟩
  · intro oracle fuel startTs endTs rows h p hp
    cases hl : bybit_funding_loop oracle endTs fuel startTs [] with
    | none => simp [bybit_fetch_funding_rate, hl] at h
    | some exc =>
      cases exc with
      | error u =>
        simp only [bybit_fetch_funding_rate, hl] at h
        obtain rfl : ([] : List MarketRow) = rows := by simpa using h
        simp at hp
      | ok lst =>
        cases lst with
        | nil =>
          simp only [bybit_fetch_funding_rate, hl] at h
          obtain rfl : ([] : List MarketRow) = rows := by simpa using h
          simp at hp
        | cons e0 es0 =>
          simp only [bybit_fetch_funding_rate, hl] at h
          obtain rfl :
              dedupTimeKeepLast (sortByTime ((e0 :: es0).map bybitFundingRow)) =
                rows := by simpa using h
          have hp2 := mem_dedupTimeKeepLast p _ hp
          rw [mem_sortByTime] at hp2
          obtain ⟨en, _, rfl⟩ := List.mem_map.mp hp2
          exact ⟨rfl, rfl, rfl, rfl⟩
  · intro oracle fuel startTs endTs rows h p hp
    cases hl : binance_funding_loop oracle endTs fuel startTs [] with
    | none => simp [binance_fetch_funding_rate, hl] at h
    | some exc =>
      cases exc with
      | error u =>
        simp only [binance_fetch_funding_rate, hl] at h
        obtain rfl : ([] : List MarketRow) = rows := by simpa using h
        simp at hp
      | ok lst =>
        cases lst with
        | nil =>
          simp only [binance_fetch_funding_rate, hl] at h
          obtain rfl : ([] : List MarketRow) = rows := by simpa using h
          simp at hp
        | cons e0 es0 =>
          simp only [binance_fetch_funding_rate, hl] at h
          obtain rfl : binanceFundingRows (e0 :: es0) = rows := by simpa using h
          rw [binanceFundingRows, mem_sortByTime] at hp
          obtain ⟨en, _, heq⟩ := List.mem_filterMap.mp hp
          cases hr : en.fundingRate with
          | none => rw [hr] at heq; simp at heq
          | some r =>
            rw [hr] at heq
            obtain rfl : (⟨en.fundingTime, r, r, r, r, 0⟩ : MarketRow) = p := by
              simpa using heq
            exact ⟨rfl, rfl, rfl, rfl⟩
  · intro resp p hp
    cases resp with
    | raise => simp [hyperliquid_fetch_funding_rate] at hp
    | notList => simp [hyperliquid_fetch_funding_rate] at hp
    | entries l =>
      cases l with
      | nil => simp [hyperliquid_fetch_funding_rate] at hp
      | cons e es =>
        obtain rfl : p = _ := by simpa [hyperliquid_fetch_funding_rate] using hp
        exact ⟨rfl, rfl, rfl, rfl⟩
  · intro resp nowTs p hp
    cases resp with
    | raise => simp [bitunix_fetch_funding_rate] at hp
    | resp code data =>
      by_cases hcode : code ≠ 0
      · simp [bitunix_fetch_funding_rate, hcode] at hp
      · cases data with
        | none => simp [bitunix_fetch_funding_rate, hcode] at hp
        | some rate =>
          obtain rfl : p = _ := by simpa [bitunix_fetch_funding_rate, hcode] using hp
          exact ⟨rfl, rfl, rfl, rfl⟩

/-- C9 witness: a Bybit funding page with one entry of rate 3 becomes one
row with all four OHLC fields equal and volume 0. -/
theorem funding_rows_flat_witness :
    (⟨5, 3, 3, 3, 3, 0⟩ : MarketRow).opn = (⟨5, 3, 3, 3, 3, 0⟩ : MarketRow).close ∧
    (⟨5, 3, 3, 3, 3, 0⟩ : MarketRow).high = (⟨5, 3, 3, 3, 3, 0⟩ : MarketRow).close ∧
    (⟨5, 3, 3, 3, 3, 0⟩ : MarketRow).low = (⟨5, 3, 3, 3, 3, 0⟩ : MarketRow).close ∧
    (⟨5, 3, 3, 3, 3, 0⟩ : MarketRow).volume = 0 :=
  funding_rows_flat.1 (fun _ => BybitFundingResp.page [⟨5, 3⟩]) 2 0 10
    [⟨5, 3, 3, 3, 3, 0⟩] (by decide) ⟨5, 3, 3, 3, 3, 0⟩ (by decide)

/-- C10: Hyperliquid returns 8 times the venue-reported hourly rate and
Bitunix returns the reported percentage divided by 100, while Bybit and
Binance return every reported rate unchanged (each returned row's close is
exactly some venue-reported rate). -/
theorem funding_rate_scaling :
    (∀ (e : Nat × Rat) (es : List (Nat × Rat)),
      hyperliquid_fetch_funding_rate (HyperliquidResp.entries (e :: es)) =
        [⟨((e :: es).getLastD e).1, ((e :: es).getLastD e).2 * 8,
          ((e :: es).getLastD e).2 * 8, ((e :: es).getLastD e).2 * 8,
          ((e :: es).getLastD e).2 * 8, 0⟩]) ∧
    (∀ (rate : Rat) (nowTs : Nat),
      bitunix_fetch_funding_rate (BitunixFundingResp.resp 0 (some rate)) nowTs =
        [⟨nowTs, rate / 100, rate / 100, rate / 100, rate / 100, 0⟩]) ∧
    (∀ (oracle : Nat → BybitFundingResp) fuel startTs endTs rows,
      bybit_fetch_funding_rate oracle fuel startTs endTs = some rows →
      ∀ p ∈ rows, ∃ x entries en, oracle x = BybitFundingResp.page entries ∧
        en ∈ entries ∧ p.close = en.fundingRate) ∧
    (∀ (oracle : Nat → BinanceFundingResp) fuel startTs endTs rows,
      binance_fetch_funding_rate oracle fuel startTs endTs = some rows →
      ∀ p ∈ rows, ∃ x entries en, oracle x = BinanceFundingResp.page entries ∧
        en ∈ entries ∧ en.fundingRate = some p.close) := by
  refine ⟨fun e es => rfl, fun rate nowTs => by simp [bitunix_fetch_funding_rate],
    ?_, ?_⟩
  · intro oracle fuel startTs endTs rows h p hp
    cases hl : bybit_funding_loop oracle endTs fuel startTs [] with
    | none => simp [bybit_fetch_funding_rate, hl] at h
    | some exc =>
      cases exc with
      | error u =>
        simp only [bybit_fetch_funding_rate, hl] at h
        obtain rfl : ([] : List MarketRow) = rows := by simpa using h
        simp at hp
      | ok lst =>
        cases lst with
        | nil =>
          simp only [bybit_fetch_funding_rate, hl] at h
          obtain rfl : ([] : List MarketRow) = rows := by simpa using h
          simp at hp
        | cons e0 es0 =>
          simp only [bybit_fetch_funding_rate, hl] at h
          obtain rfl :
              dedupTimeKeepLast (sortByTime ((e0 :: es0).map bybitFundingRow)) =
                rows := by simpa using h
          have hp2 := mem_dedupTimeKeepLast p _ hp
          rw [mem_sortByTime] at hp2
          obtain ⟨en, hmem, rfl⟩ := List.mem_map.mp hp2
          rcases bybit_funding_loop_ok_mem oracle endTs fuel startTs [] _ hl en hmem
            with hin | ⟨x, entries, hx, hen⟩
          · simp at hin
          · exact ⟨x, entries, en, hx, hen, rfl⟩
  · intro oracle fuel startTs endTs rows h p hp
    cases hl : binance_funding_loop oracle endTs fuel startTs [] with
    | none => simp [binance_fetch_funding_rate, hl] at h
    | some exc =>
      cases exc with
      | error u =>
        simp only [binance_fetch_funding_rate, hl] at h
        obtain rfl : ([] : List MarketRow) = rows := by simpa using h
        simp at hp
      | ok lst =>
        cases lst with
        | nil =>
          simp only [binance_fetch_funding_rate, hl] at h
          obtain rfl : ([] : List MarketRow) = rows := by simpa using h
          simp at hp
        | cons e0 es0 =>
          simp only [binance_fetch_funding_rate, hl] at h
          obtain rfl : binanceFundingRows (e0 :: es0) = rows := by simpa using h
          rw [binanceFundingRows, mem_sortByTime] at hp
          obtain ⟨en, hmem, heq⟩ := List.mem_filterMap.mp hp
          rcases binance_funding_loop_ok_mem oracle endTs fuel startTs [] _ hl en hmem
            with hin | ⟨x, entries, hx, hen⟩
          · simp at hin
          · cases hr : en.fundingRate with
            | none => rw [hr] at heq; simp at heq
            | some r =>
              rw [hr] at heq
              obtain rfl : (⟨en.fundingTime, r, r, r, r, 0⟩ : MarketRow) = p := by
                simpa using heq
              exact ⟨x, entries, en, hx, hen, by rw [hr]⟩

/-- C10 witness: one Bybit funding page with rate 3 produces a row whose
close is exactly the reported rate. -/
theorem funding_rate_scaling_witness :
    ∃ x entries en,
      (fun _ : Nat => BybitFundingResp.page [⟨5, 3⟩]) x =
        BybitFundingResp.page entries ∧
      en ∈ entries ∧ (⟨5, 3, 3, 3, 3, 0⟩ : MarketRow).close = en.fundingRate :=
  funding_rate_scaling.2.2.1 (fun _ => BybitFundingResp.page [⟨5, 3⟩]) 2 0 10
    [⟨5, 3, 3, 3, 3, 0⟩] (by decide) ⟨5, 3, 3, 3, 3, 0⟩ (by decide)

end Laklak
